import Mathlib

/-
Verification of the mosquitto authentication-plugin contract
(src/src/mosquitto_plugin.h) against its natural-language specification.

The repository under review is the interface header only: the broker-side
orchestrator (decision chain, lifecycle driver) and conforming providers are
described by the header comments and the specification but their C source is
not part of this repository.  Definitions below that embed those missing
parts carry a doc comment starting with the words Modelled from the spec.
-/

namespace Mosquitto

/-- The contract version constant, from line 20 of mosquitto_plugin.h:
MOSQ_AUTH_PLUGIN_VERSION is defined to be 2. -/
def MOSQ_AUTH_PLUGIN_VERSION : Int := 2

/-- MOSQ_ACL_NONE, from line 22 of the header. -/
def MOSQ_ACL_NONE : Nat := 0x00

/-- MOSQ_ACL_READ, from line 23 of the header. -/
def MOSQ_ACL_READ : Nat := 0x01

/-- MOSQ_ACL_WRITE, from line 24 of the header. -/
def MOSQ_ACL_WRITE : Nat := 0x02

/-- The result a single decision source produces for one check, per the
header's return-value documentation of the check functions:
MOSQ_ERR_SUCCESS (grant), MOSQ_ERR_AUTH or MOSQ_ERR_ACL_DENIED (deny),
MOSQ_ERR_UNKNOWN (application specific error), MOSQ_ERR_PLUGIN_DEFER. -/
inductive AuthResult where
  | success
  | denied
  | unknownErr
  | pluginDefer
deriving DecidableEq, Repr

/-- The binary broker-visible outcome of a whole check. -/
inductive Decision where
  | grant
  | deny
deriving DecidableEq, Repr

/-- Modelled from the spec: the Decision Chain evaluation algorithm of
spec section 4.4 and the check-flow comment at lines 57 to 68 of the
header (the broker-side orchestrator source is not in this repository).
Sources are consulted in declared order; a defer moves to the next
source, a grant or deny terminates with that outcome, an error
terminates with deny, and exhausting all sources yields deny. -/
def chainEval : List AuthResult → Decision
  | [] => Decision.deny
  | r :: rest =>
    match r with
    | AuthResult.pluginDefer => chainEval rest
    | AuthResult.success => Decision.grant
    | AuthResult.denied => Decision.deny
    | AuthResult.unknownErr => Decision.deny

/-- The broker-visible decision a single source result denotes: grant for
success, deny for an explicit denial and, conservatively, for an
application-specific error; a defer denotes no decision and is mapped to
deny only by the closed-by-default chain. -/
def resultDecision : AuthResult → Decision
  | AuthResult.success => Decision.grant
  | AuthResult.denied => Decision.deny
  | AuthResult.unknownErr => Decision.deny
  | AuthResult.pluginDefer => Decision.deny

/-- Modelled from the spec: the built-in password-file or ACL-file source.
Per the check-flow comment at lines 59 to 62 of the header and spec
section 4.4, it is considered to defer when the relevant file is not
configured; when configured it yields its own result. -/
def fileSourceResult : Option AuthResult → AuthResult
  | none => AuthResult.pluginDefer
  | some r => r

theorem chainEval_defer_cons (rest : List AuthResult) :
    chainEval (AuthResult.pluginDefer :: rest) = chainEval rest := rfl

theorem chainEval_all_defer (l : List AuthResult)
    (h : ∀ r ∈ l, r = AuthResult.pluginDefer) : chainEval l = Decision.deny := by
  induction l with
  | nil => rfl
  | cons r rest ih =>
    have hr : r = AuthResult.pluginDefer := h r (List.mem_cons_self r rest)
    subst hr
    rw [chainEval_defer_cons]
    exact ih (fun x hx => h x (List.mem_cons_of_mem _ hx))

theorem chainEval_defer_append (pre post : List AuthResult)
    (h : ∀ r ∈ pre, r = AuthResult.pluginDefer) :
    chainEval (pre ++ post) = chainEval post := by
  induction pre with
  | nil => rfl
  | cons r rest ih =>
    have hr : r = AuthResult.pluginDefer := h r (List.mem_cons_self r rest)
    subst hr
    rw [List.cons_append, chainEval_defer_cons]
    exact ih (fun x hx => h x (List.mem_cons_of_mem _ hx))

/-- C1: for every check and every ordered list of source results, when the
sources before position i all defer and the source at position i is the
first that does not defer, the chain result is the decision denoted by
that source's result: grant on success, deny on denial, and deny on
error.  (A source strictly before the first non-deferring one cannot have
returned error, since error is itself a non-defer result; the claim's
error clause is the error case of resultDecision.)  Sources after the
first decisive one do not affect the outcome: post is universally
quantified. -/
theorem first_decisive_wins (pre post : List AuthResult) (r : AuthResult)
    (hpre : ∀ x ∈ pre, x = AuthResult.pluginDefer)
    (hr : r ≠ AuthResult.pluginDefer) :
    chainEval (pre ++ r :: post) = resultDecision r := by
  rw [chainEval_defer_append pre (r :: post) hpre]
  cases r with
  | success => rfl
  | denied => rfl
  | unknownErr => rfl
  | pluginDefer => exact absurd rfl hr

/-- Witness for first_decisive_wins at a concrete chain: defer then denied
then success evaluates to deny, the decision of the first non-defer
source. -/
theorem first_decisive_wins_witness :
    chainEval ([AuthResult.pluginDefer] ++ AuthResult.denied :: [AuthResult.success])
      = resultDecision AuthResult.denied :=
  first_decisive_wins [AuthResult.pluginDefer] [AuthResult.success] AuthResult.denied
    (by decide) (by decide)

/-- C2: if a source is actually consulted (every source before it in the
declared order deferred) and returns the application-specific error
result, the chain result is deny, whatever the sources after it would
have returned; in particular two chains differing only after the erroring
source have the same outcome. -/
theorem error_conservatism (pre post post' : List AuthResult)
    (hpre : ∀ x ∈ pre, x = AuthResult.pluginDefer) :
    chainEval (pre ++ AuthResult.unknownErr :: post) = Decision.deny ∧
    chainEval (pre ++ AuthResult.unknownErr :: post)
      = chainEval (pre ++ AuthResult.unknownErr :: post') := by
  constructor
  · rw [chainEval_defer_append pre _ hpre]
    rfl
  · rw [chainEval_defer_append pre _ hpre, chainEval_defer_append pre _ hpre]
    rfl

/-- Witness for error_conservatism: a consulted erroring source yields deny
even though a later source would have granted. -/
theorem error_conservatism_witness :
    chainEval ([AuthResult.pluginDefer] ++ AuthResult.unknownErr :: [AuthResult.success])
      = Decision.deny ∧
    chainEval ([AuthResult.pluginDefer] ++ AuthResult.unknownErr :: [AuthResult.success])
      = chainEval ([AuthResult.pluginDefer] ++ AuthResult.unknownErr :: []) :=
  error_conservatism [AuthResult.pluginDefer] [AuthResult.success] []
    (by decide)

/-- C3: if the built-in file source defers (in particular when its file is
not configured) and every plugin source also defers, the chain result is
deny. -/
theorem defer_closure (cfg : Option AuthResult) (plugins : List AuthResult)
    (hfile : fileSourceResult cfg = AuthResult.pluginDefer)
    (hplug : ∀ r ∈ plugins, r = AuthResult.pluginDefer) :
    chainEval (fileSourceResult cfg :: plugins) = Decision.deny := by
  apply chainEval_all_defer
  intro r hmem
  rcases List.mem_cons.mp hmem with h | h
  · rw [h, hfile]
  · exact hplug r h

/-- Witness for defer_closure: no file configured and two deferring
plugins yield deny. -/
theorem defer_closure_witness :
    chainEval (fileSourceResult none
        :: [AuthResult.pluginDefer, AuthResult.pluginDefer]) = Decision.deny :=
  defer_closure none [AuthResult.pluginDefer, AuthResult.pluginDefer]
    (by decide) (by decide)

/-- C8: defer is the identity of the chain fold: inserting or removing a
deferring source at any position leaves the chain result unchanged, and
the empty chain yields deny. -/
theorem defer_identity :
    (∀ pre post : List AuthResult,
      chainEval (pre ++ AuthResult.pluginDefer :: post) = chainEval (pre ++ post)) ∧
    chainEval [] = Decision.deny := by
  constructor
  · intro pre post
    induction pre with
    | nil => rfl
    | cons r rest ih =>
      cases r with
      | success => rfl
      | denied => rfl
      | unknownErr => rfl
      | pluginDefer =>
        rw [List.cons_append, chainEval_defer_cons, ih, List.cons_append,
          chainEval_defer_cons]
  · rfl

/-- struct mosquitto_acl_msg, from lines 35 to 41 of the header: topic,
payload bytes with length, QoS class and retained flag. -/
structure MosquittoAclMsg where
  topic : String
  payload : List Nat
  payloadlen : Int
  qos : Int
  retain : Bool
deriving DecidableEq, Repr

/-- Modelled from the spec: a provider's exported check surface.  The three
check symbols are optional per the spec's exported-symbol table; an absent
symbol is an Option field holding none.  The state handle of the C calls is
irrelevant to the defaulting and omitted here. -/
structure Plugin where
  unpwd_check : Option (Option String → Option String → AuthResult)
  acl_check : Option (Nat → MosquittoAclMsg → AuthResult)
  psk_key_get : Option (String → String → AuthResult)

/-- Modelled from the spec: the host's invocation of a provider's
username/password check; a missing symbol is treated as defer. -/
def invokeUnpwd (p : Plugin) (username password : Option String) : AuthResult :=
  match p.unpwd_check with
  | none => AuthResult.pluginDefer
  | some f => f username password

/-- Modelled from the spec: the host's invocation of a provider's
topic-access check; a missing symbol is treated as defer. -/
def invokeAcl (p : Plugin) (access : Nat) (msg : MosquittoAclMsg) : AuthResult :=
  match p.acl_check with
  | none => AuthResult.pluginDefer
  | some f => f access msg

/-- Modelled from the spec: the host's invocation of a provider's PSK
lookup; a missing symbol is treated as defer. -/
def invokePsk (p : Plugin) (hint identity : String) : AuthResult :=
  match p.psk_key_get with
  | none => AuthResult.pluginDefer
  | some f => f hint identity

/-- Modelled from the spec: a provider that exports all three check symbols
and answers defer to every check. -/
def deferPlugin : Plugin where
  unpwd_check := some (fun _ _ => AuthResult.pluginDefer)
  acl_check := some (fun _ _ => AuthResult.pluginDefer)
  psk_key_get := some (fun _ _ => AuthResult.pluginDefer)

/-- C7: each of the three check symbols is optional, and for every check a
provider missing the corresponding symbol is treated by the host exactly
as a provider returning defer for that check: the invocation result is
defer, the same as invoking the always-defer provider on the same
arguments. -/
theorem missing_symbol_defers (p : Plugin) (username password : Option String)
    (access : Nat) (msg : MosquittoAclMsg) (hint identity : String) :
    (p.unpwd_check = none →
      invokeUnpwd p username password = invokeUnpwd deferPlugin username password ∧
      invokeUnpwd p username password = AuthResult.pluginDefer) ∧
    (p.acl_check = none →
      invokeAcl p access msg = invokeAcl deferPlugin access msg ∧
      invokeAcl p access msg = AuthResult.pluginDefer) ∧
    (p.psk_key_get = none →
      invokePsk p hint identity = invokePsk deferPlugin hint identity ∧
      invokePsk p hint identity = AuthResult.pluginDefer) := by
  refine ⟨fun h => ?_, fun h => ?_, fun h => ?_⟩
  · unfold invokeUnpwd deferPlugin
    rw [h]
    exact ⟨rfl, rfl⟩
  · unfold invokeAcl deferPlugin
    rw [h]
    exact ⟨rfl, rfl⟩
  · unfold invokePsk deferPlugin
    rw [h]
    exact ⟨rfl, rfl⟩

/-- Witness for missing_symbol_defers at the provider exporting no check
symbol, with concrete check arguments. -/
theorem missing_symbol_defers_witness :
    (Plugin.mk none none none).unpwd_check = none ∧
    invokeUnpwd (Plugin.mk none none none) (some "alice") none
      = AuthResult.pluginDefer := by
  have h := missing_symbol_defers (Plugin.mk none none none) (some "alice") none
    MOSQ_ACL_READ (MosquittoAclMsg.mk "t" [] 0 0 false) "hint" "id"
  exact ⟨rfl, (h.1 rfl).2⟩

/-- The calls a host can issue to a loaded provider: the four lifecycle
functions of the header (plugin init, plugin cleanup, security init and
security cleanup, the latter two carrying the reload flag) and the check
calls. -/
inductive PluginCall where
  | plugin_init
  | plugin_cleanup
  | security_init (reload : Bool)
  | security_cleanup (reload : Bool)
  | check
deriving DecidableEq, Repr

/-- An observable host action towards one provider: the version probe, or
one of the lifecycle and check calls. -/
inductive HostAction where
  | versionProbe
  | call (c : PluginCall)
deriving DecidableEq, Repr

/-- Modelled from the spec: the host's load procedure for one provider
(spec section 4.1; header comment at lines 79 to 86).  The host first
issues the version probe; if the returned value differs from
MOSQ_AUTH_PLUGIN_VERSION, the provider is rejected and no further call of
the intended call plan is issued. -/
def hostLoadTrace (providerVersion : Int) (plan : List PluginCall) :
    List HostAction :=
  HostAction.versionProbe ::
    (if providerVersion = MOSQ_AUTH_PLUGIN_VERSION
      then plan.map HostAction.call else [])

/-- C5: for a provider whose version query returns a value different from
the host's expected contract version, every action the host takes is the
version probe itself: no lifecycle or check call is issued after the
probe, whatever calls the host had planned. -/
theorem version_gate (providerVersion : Int) (plan : List PluginCall)
    (h : providerVersion ≠ MOSQ_AUTH_PLUGIN_VERSION) :
    ∀ a ∈ hostLoadTrace providerVersion plan, a = HostAction.versionProbe := by
  intro a ha
  unfold hostLoadTrace at ha
  rw [if_neg h] at ha
  rcases List.mem_cons.mp ha with h1 | h1
  · exact h1
  · exact absurd h1 (List.not_mem_nil a)

/-- Witness for version_gate: a provider reporting version 3 with a full
lifecycle plan gets only the probe. -/
theorem version_gate_witness :
    (3 : Int) ≠ MOSQ_AUTH_PLUGIN_VERSION ∧
    ∀ a ∈ hostLoadTrace 3 [PluginCall.plugin_init, PluginCall.check],
      a = HostAction.versionProbe :=
  ⟨by decide, version_gate 3 [PluginCall.plugin_init, PluginCall.check] (by decide)⟩

/-- Modelled from the spec: a conforming provider's version query.  The
header comment at lines 79 to 86 requires the function to simply return
MOSQ_AUTH_PLUGIN_VERSION; it takes no inputs and reads no state. -/
def mosquitto_auth_plugin_version : Unit → Int :=
  fun _ => MOSQ_AUTH_PLUGIN_VERSION

/-- C10: the contract version constant equals exactly 2, and a conforming
provider's version query returns it, hence returns 2, on every call. -/
theorem version_constant_is_two :
    MOSQ_AUTH_PLUGIN_VERSION = 2 ∧
    ∀ u : Unit, mosquitto_auth_plugin_version u = 2 :=
  ⟨rfl, fun _ => rfl⟩

/-- Modelled from the spec: the host's storage of the opaque provider state
handle.  Per the header signatures, only mosquitto_auth_plugin_init (line
107) receives a writable slot (void pointer to pointer); security init and
cleanup, plugin cleanup and the three checks (lines 127, 151, 175, 189,
202, 226) receive the handle by value, so processing any call other than
plugin init leaves the stored handle unchanged.  The value w is what the
provider writes into the slot at plugin init. -/
def hostHandleStep {α : Type} (w : α) (store : Option α) (c : PluginCall) :
    Option α :=
  match c with
  | PluginCall.plugin_init => some w
  | _ => store

/-- Modelled from the spec: the host processes a sequence of calls,
recording the handle value it passes at each call (the stored value before
the call) and the final stored value. -/
def hostHandleRun {α : Type} (w : α) (store : Option α) :
    List PluginCall → List (Option α) × Option α
  | [] => ([], store)
  | c :: cs =>
    let next := hostHandleRun w (hostHandleStep w store c) cs
    (store :: next.1, next.2)

/-- C9: the handle is write-once at plugin init.  After plugin init stored
the handle h, any sequence of calls that does not contain plugin init is
passed exactly h at every call and leaves the stored handle equal to h. -/
theorem handle_write_once {α : Type} (w : α) (h : α) (calls : List PluginCall)
    (hno : ∀ c ∈ calls, c ≠ PluginCall.plugin_init) :
    hostHandleRun w (some h) calls
      = (calls.map (fun _ => some h), some h) := by
  induction calls with
  | nil => rfl
  | cons c cs ih =>
    have hc : c ≠ PluginCall.plugin_init := hno c (List.mem_cons_self c cs)
    have hstep : hostHandleStep w (some h) c = some h := by
      cases c with
      | plugin_init => exact absurd rfl hc
      | plugin_cleanup => rfl
      | security_init r => rfl
      | security_cleanup r => rfl
      | check => rfl
    unfold hostHandleRun
    rw [hstep, ih (fun x hx => hno x (List.mem_cons_of_mem _ hx))]
    rfl

/-- Witness for handle_write_once: after plugin init wrote the handle 7, a
security init, two checks and a security cleanup are each passed 7 and the
store still holds 7 (even though a later plugin init would have written
9). -/
theorem handle_write_once_witness :
    hostHandleRun 9 (some 7)
        [PluginCall.security_init false, PluginCall.check, PluginCall.check,
          PluginCall.security_cleanup false]
      = ([some 7, some 7, some 7, some 7], some 7) :=
  handle_write_once 9 7
    [PluginCall.security_init false, PluginCall.check, PluginCall.check,
      PluginCall.security_cleanup false]
    (by decide)

/-- The NUL character terminating C strings. -/
def nulChar : Char := Char.ofNat 0

/-- Whether a character is a hexadecimal digit, i.e. in 0 to 9, a to f or
A to F. -/
def isHexChar (c : Char) : Bool :=
  decide (('0' ≤ c ∧ c ≤ '9') ∨ ('a' ≤ c ∧ c ≤ 'f') ∨ ('A' ≤ c ∧ c ≤ 'F'))

theorem isHexChar_ne_nul (c : Char) (h : isHexChar c = true) : c ≠ nulChar := by
  intro hc
  subst hc
  exact absurd h (by decide)

/-- Modelled from the spec: copying the encoded key into the host-provided
buffer of capacity max_key_len (header comment at lines 204 to 226; a
conforming provider's C source is not in this repository).  The key fits
only if its length is strictly below the capacity, leaving room for the
NUL terminator; the rest of the buffer is zero filled.  When the key does
not fit, no buffer is produced. -/
def writeKeyBuffer (key : List Char) (max_key_len : Nat) : Option (List Char) :=
  if key.length < max_key_len then
    some (key ++ nulChar :: List.replicate (max_key_len - key.length - 1) nulChar)
  else none

/-- The call outcome given the buffer-write attempt: a written buffer
means success, a failed write means the error result. -/
def pskOfBuffer (bufOpt : Option (List Char)) : AuthResult × Option (List Char) :=
  match bufOpt with
  | some buf => (AuthResult.success, some buf)
  | none => (AuthResult.unknownErr, none)

/-- The call outcome given the table lookup: an unserved hint and identity
pair means defer, a served one is encoded into the buffer. -/
def pskOfKey (keyOpt : Option (List Char)) (max_key_len : Nat) :
    AuthResult × Option (List Char) :=
  match keyOpt with
  | none => (AuthResult.pluginDefer, none)
  | some key => pskOfBuffer (writeKeyBuffer key max_key_len)

/-- Modelled from the spec: a conforming provider's PSK lookup backed by a
key table.  A hint and identity pair not served by the table yields defer;
a key that does not fit the buffer capacity yields the error result and
no buffer; otherwise the key is copied NUL-terminated into the buffer and
the call succeeds. -/
def mosquitto_auth_psk_key_get
    (table : String → String → Option (List Char))
    (hint identity : String) (max_key_len : Nat) :
    AuthResult × Option (List Char) :=
  pskOfKey (table hint identity) max_key_len

/-- The C string a buffer holds: its characters up to the first NUL. -/
def bufferString (buf : List Char) : List Char :=
  buf.takeWhile (fun c => c != nulChar)

theorem takeWhile_append_nul (key rest : List Char)
    (h : ∀ c ∈ key, c ≠ nulChar) :
    (key ++ nulChar :: rest).takeWhile (fun c => c != nulChar) = key := by
  induction key with
  | nil => simp [List.takeWhile]
  | cons c cs ih =>
    have hc : c ≠ nulChar := h c (List.mem_cons_self c cs)
    have hcb : (c != nulChar) = true := bne_iff_ne.mpr hc
    rw [List.cons_append, List.takeWhile_cons, if_pos hcb,
      ih (fun x hx => h x (List.mem_cons_of_mem _ hx))]

/-- C6: for a conforming provider whose key table holds hexadecimal keys,
every PSK lookup that succeeds has written a NUL-terminated string into
the buffer whose length is strictly below the declared capacity and whose
characters are all hexadecimal digits; and when the stored key would not
fit the capacity, the lookup returns the error result instead of
success. -/
theorem psk_bounds (table : String → String → Option (List Char))
    (hint identity : String) (max_key_len : Nat)
    (htable : ∀ h i k, table h i = some k → ∀ c ∈ k, isHexChar c = true) :
    (∀ buf,
      mosquitto_auth_psk_key_get table hint identity max_key_len
          = (AuthResult.success, some buf) →
        (bufferString buf).length < max_key_len ∧
        (∀ c ∈ bufferString buf, isHexChar c = true) ∧
        ∃ rest, buf = bufferString buf ++ nulChar :: rest) ∧
    (∀ key, table hint identity = some key → max_key_len ≤ key.length →
      mosquitto_auth_psk_key_get table hint identity max_key_len
        = (AuthResult.unknownErr, none)) := by
  constructor
  · intro buf hbuf
    unfold mosquitto_auth_psk_key_get at hbuf
    cases htab : table hint identity with
    | none =>
      rw [htab] at hbuf
      simp only [pskOfKey] at hbuf
      injection hbuf with h1 h2
      exact absurd h1 (by decide)
    | some key =>
      rw [htab] at hbuf
      simp only [pskOfKey] at hbuf
      have hhex : ∀ c ∈ key, isHexChar c = true := htable hint identity key htab
      by_cases hlen : key.length < max_key_len
      · have hwb : writeKeyBuffer key max_key_len
            = some (key ++ nulChar ::
              List.replicate (max_key_len - key.length - 1) nulChar) := by
          unfold writeKeyBuffer
          rw [if_pos hlen]
        rw [hwb] at hbuf
        simp only [pskOfBuffer] at hbuf
        injection hbuf with h1 h2
        have hb : buf = key ++ nulChar ::
            List.replicate (max_key_len - key.length - 1) nulChar :=
          (Option.some.inj h2).symm
        have hstr : bufferString buf = key := by
          rw [hb]
          exact takeWhile_append_nul key _
            (fun c hc => isHexChar_ne_nul c (hhex c hc))
        refine ⟨?_, ?_, ?_⟩
        · rw [hstr]; exact hlen
        · rw [hstr]; exact hhex
        · exact ⟨List.replicate (max_key_len - key.length - 1) nulChar,
            by rw [hstr, hb]⟩
      · have hwb : writeKeyBuffer key max_key_len = none := by
          unfold writeKeyBuffer
          rw [if_neg hlen]
        rw [hwb] at hbuf
        simp only [pskOfBuffer] at hbuf
        injection hbuf with h1 h2
        exact absurd h1 (by decide)
  · intro key htab hge
    have hwb : writeKeyBuffer key max_key_len = none := by
      unfold writeKeyBuffer
      rw [if_neg (Nat.not_lt.mpr hge)]
    unfold mosquitto_auth_psk_key_get
    rw [htab]
    simp only [pskOfKey]
    rw [hwb]
    rfl

/-- Witness for psk_bounds: a table serving the hex key dead and a buffer
of capacity 6; the lookup succeeds with the string dead, of length 4,
below 6, all hex, NUL-terminated. -/
theorem psk_bounds_witness :
    (bufferString ['d', 'e', 'a', 'd', nulChar, nulChar]).length < 6 ∧
    (∀ c ∈ bufferString ['d', 'e', 'a', 'd', nulChar, nulChar],
      isHexChar c = true) ∧
    ∃ rest, ['d', 'e', 'a', 'd', nulChar, nulChar]
      = bufferString ['d', 'e', 'a', 'd', nulChar, nulChar] ++ nulChar :: rest :=
  (psk_bounds (fun _ _ => some ['d', 'e', 'a', 'd']) "h" "i" 6
      (fun _ _ k hk => by
        injection hk with h2
        subst h2
        decide)).1
    ['d', 'e', 'a', 'd', nulChar, nulChar] (by decide)

/-- The per-provider lifecycle states of spec section 4.2, refined by the
header comments: secDone is the state right after the final security
cleanup (reload false), from which only plugin cleanup may follow (header
line 113: security cleanup is called directly before plugin cleanup), and
finished is the state after plugin cleanup, from which nothing may follow
(plugin init and plugin cleanup are each called only once, header lines
92 and 112). -/
inductive LifeState where
  | unloaded
  | initialized
  | active
  | suspended
  | secDone
  | finished
deriving DecidableEq, Repr

/-- Modelled from the spec: the host's per-provider call discipline as a
transition function over LifeState, from the state machine of spec
section 4.2 and the header lifecycle comments (lines 88 to 175).  A call
not listed is never issued in that state (none). -/
def lifeStep : LifeState → PluginCall → Option LifeState
  | LifeState.unloaded, PluginCall.plugin_init => some LifeState.initialized
  | LifeState.initialized, PluginCall.security_init false => some LifeState.active
  | LifeState.initialized, PluginCall.plugin_cleanup => some LifeState.finished
  | LifeState.active, PluginCall.check => some LifeState.active
  | LifeState.active, PluginCall.security_cleanup true => some LifeState.suspended
  | LifeState.active, PluginCall.security_cleanup false => some LifeState.secDone
  | LifeState.suspended, PluginCall.security_init true => some LifeState.active
  | LifeState.secDone, PluginCall.plugin_cleanup => some LifeState.finished
  | _, _ => none

/-- Running the lifecycle machine over a call sequence. -/
def lifeRun : LifeState → List PluginCall → Option LifeState
  | s, [] => some s
  | s, c :: cs => (lifeStep s c).bind (fun s2 => lifeRun s2 cs)

/-- A word of check calls only: the regular expression piece check star. -/
def isChecks (w : List PluginCall) : Prop := ∀ c ∈ w, c = PluginCall.check

/-- One reload round of the lifecycle regular expression: check star, then
security cleanup with reload true, then security init with reload true. -/
def isReloadRound (w : List PluginCall) : Prop :=
  ∃ cs, isChecks cs ∧
    w = cs ++ [PluginCall.security_cleanup true, PluginCall.security_init true]

/-- A concatenation of zero or more reload rounds. -/
def isReloadRounds (w : List PluginCall) : Prop :=
  ∃ rs : List (List PluginCall), (∀ r ∈ rs, isReloadRound r) ∧ w = rs.flatten

/-- The optional security part of the lifecycle regular expression:
security init with reload false, the reload rounds, trailing checks, and
the final security cleanup with reload false. -/
def isSecurityBody (w : List PluginCall) : Prop :=
  ∃ rounds cs, isReloadRounds rounds ∧ isChecks cs ∧
    w = PluginCall.security_init false ::
      (rounds ++ cs ++ [PluginCall.security_cleanup false])

/-- A complete word of the lifecycle regular expression of spec property 2:
plugin init, an optional security body, plugin cleanup. -/
def isFullLifecycle (w : List PluginCall) : Prop :=
  ∃ b, (b = [] ∨ isSecurityBody b) ∧
    w = PluginCall.plugin_init :: (b ++ [PluginCall.plugin_cleanup])

/-- The exact set of call sequences that reach each lifecycle state,
used as the induction invariant for the bracketing theorem. -/
def reachShape : LifeState → List PluginCall → Prop
  | LifeState.unloaded, w => w = []
  | LifeState.initialized, w => w = [PluginCall.plugin_init]
  | LifeState.active, w => ∃ rounds cs, isReloadRounds rounds ∧ isChecks cs ∧
      w = PluginCall.plugin_init :: PluginCall.security_init false ::
        (rounds ++ cs)
  | LifeState.suspended, w => ∃ rounds cs, isReloadRounds rounds ∧ isChecks cs ∧
      w = PluginCall.plugin_init :: PluginCall.security_init false ::
        (rounds ++ cs ++ [PluginCall.security_cleanup true])
  | LifeState.secDone, w => ∃ b, isSecurityBody b ∧
      w = PluginCall.plugin_init :: b
  | LifeState.finished, w => isFullLifecycle w

theorem lifeRun_append (s : LifeState) (w1 w2 : List PluginCall) :
    lifeRun s (w1 ++ w2) = (lifeRun s w1).bind (fun t => lifeRun t w2) := by
  induction w1 generalizing s with
  | nil => rfl
  | cons c cs ih =>
    rw [List.cons_append]
    show (lifeStep s c).bind (fun s2 => lifeRun s2 (cs ++ w2))
      = ((lifeStep s c).bind (fun s2 => lifeRun s2 cs)).bind (fun t => lifeRun t w2)
    cases lifeStep s c with
    | none => rfl
    | some s2 => exact ih s2

theorem lifeRun_singleton (t : LifeState) (c : PluginCall) :
    lifeRun t [c] = lifeStep t c := by
  show (lifeStep t c).bind (fun s2 => lifeRun s2 []) = lifeStep t c
  cases lifeStep t c with
  | none => rfl
  | some s2 => rfl

theorem isReloadRounds_nil : isReloadRounds [] :=
  ⟨[], fun r hr => absurd hr (List.not_mem_nil r), rfl⟩

theorem isChecks_nil : isChecks [] :=
  fun c hc => absurd hc (List.not_mem_nil c)

theorem isChecks_append_check (cs : List PluginCall) (h : isChecks cs) :
    isChecks (cs ++ [PluginCall.check]) := by
  intro c hc
  rcases List.mem_append.mp hc with h1 | h1
  · exact h c h1
  · rcases List.mem_singleton.mp h1 with h2
    exact h2

theorem isReloadRounds_snoc (rounds cs : List PluginCall)
    (hr : isReloadRounds rounds) (hc : isChecks cs) :
    isReloadRounds (rounds ++ (cs ++ [PluginCall.security_cleanup true,
      PluginCall.security_init true])) := by
  obtain ⟨rs, hrs, hjoin⟩ := hr
  refine ⟨rs ++ [cs ++ [PluginCall.security_cleanup true,
    PluginCall.security_init true]], ?_, ?_⟩
  · intro r hmem
    rcases List.mem_append.mp hmem with h1 | h1
    · exact hrs r h1
    · rw [List.mem_singleton.mp h1]
      exact ⟨cs, hc, rfl⟩
  · rw [List.flatten_append, ← hjoin]
    simp

/-- Every call sequence the lifecycle machine accepts has the exact shape
recorded by reachShape for the state it reaches. -/
theorem lifeRun_reachShape (w : List PluginCall) (s : LifeState)
    (h : lifeRun LifeState.unloaded w = some s) : reachShape s w := by
  induction w using List.reverseRecOn generalizing s with
  | nil =>
    have hs : LifeState.unloaded = s := Option.some.inj h
    rw [← hs]
    rfl
  | append_singleton w c ih =>
    rw [lifeRun_append] at h
    cases hw : lifeRun LifeState.unloaded w with
    | none =>
      rw [hw] at h
      exact absurd h (by simp [Option.bind])
    | some t =>
      rw [hw] at h
      have hstep : lifeStep t c = some s := by
        rw [Option.some_bind, lifeRun_singleton] at h
        exact h
      have hshape := ih t hw
      cases t with
      | unloaded =>
        have hwnil : w = [] := hshape
        cases c with
        | plugin_init =>
          have hs : LifeState.initialized = s := Option.some.inj hstep
          rw [← hs, hwnil]
          rfl
        | plugin_cleanup => simp [lifeStep] at hstep
        | security_init r => cases r <;> simp [lifeStep] at hstep
        | security_cleanup r => cases r <;> simp [lifeStep] at hstep
        | check => simp [lifeStep] at hstep
      | initialized =>
        have hwi : w = [PluginCall.plugin_init] := hshape
        cases c with
        | plugin_init => simp [lifeStep] at hstep
        | plugin_cleanup =>
          have hs : LifeState.finished = s := Option.some.inj hstep
          rw [← hs, hwi]
          exact ⟨[], Or.inl rfl, rfl⟩
        | security_init r =>
          cases r with
          | false =>
            have hs : LifeState.active = s := Option.some.inj hstep
            rw [← hs, hwi]
            exact ⟨[], [], isReloadRounds_nil, isChecks_nil, rfl⟩
          | true => simp [lifeStep] at hstep
        | security_cleanup r => cases r <;> simp [lifeStep] at hstep
        | check => simp [lifeStep] at hstep
      | active =>
        obtain ⟨rounds, cs, hr, hc, hw2⟩ := hshape
        cases c with
        | plugin_init => simp [lifeStep] at hstep
        | plugin_cleanup => simp [lifeStep] at hstep
        | security_init r => cases r <;> simp [lifeStep] at hstep
        | security_cleanup r =>
          cases r with
          | true =>
            have hs : LifeState.suspended = s := Option.some.inj hstep
            rw [← hs, hw2]
            exact ⟨rounds, cs, hr, hc, by simp [List.append_assoc]⟩
          | false =>
            have hs : LifeState.secDone = s := Option.some.inj hstep
            rw [← hs, hw2]
            exact ⟨PluginCall.security_init false ::
                (rounds ++ cs ++ [PluginCall.security_cleanup false]),
              ⟨rounds, cs, hr, hc, rfl⟩, by simp [List.append_assoc]⟩
        | check =>
          have hs : LifeState.active = s := Option.some.inj hstep
          rw [← hs, hw2]
          exact ⟨rounds, cs ++ [PluginCall.check], hr,
            isChecks_append_check cs hc, by simp [List.append_assoc]⟩
      | suspended =>
        obtain ⟨rounds, cs, hr, hc, hw2⟩ := hshape
        cases c with
        | plugin_init => simp [lifeStep] at hstep
        | plugin_cleanup => simp [lifeStep] at hstep
        | security_init r =>
          cases r with
          | true =>
            have hs : LifeState.active = s := Option.some.inj hstep
            rw [← hs, hw2]
            refine ⟨rounds ++ (cs ++ [PluginCall.security_cleanup true,
              PluginCall.security_init true]), [],
              isReloadRounds_snoc rounds cs hr hc, isChecks_nil, ?_⟩
            simp [List.append_assoc]
          | false => simp [lifeStep] at hstep
        | security_cleanup r => cases r <;> simp [lifeStep] at hstep
        | check => simp [lifeStep] at hstep
      | secDone =>
        obtain ⟨b, hb, hw2⟩ := hshape
        cases c with
        | plugin_init => simp [lifeStep] at hstep
        | plugin_cleanup =>
          have hs : LifeState.finished = s := Option.some.inj hstep
          rw [← hs, hw2]
          exact ⟨b, Or.inr hb, by simp⟩
        | security_init r => cases r <;> simp [lifeStep] at hstep
        | security_cleanup r => cases r <;> simp [lifeStep] at hstep
        | check => simp [lifeStep] at hstep
      | finished =>
        cases c with
        | plugin_init => simp [lifeStep] at hstep
        | plugin_cleanup => simp [lifeStep] at hstep
        | security_init r => cases r <;> simp [lifeStep] at hstep
        | security_cleanup r => cases r <;> simp [lifeStep] at hstep
        | check => simp [lifeStep] at hstep

theorem mem_reloadRounds (rounds : List PluginCall) (h : isReloadRounds rounds)
    (x : PluginCall) (hx : x ∈ rounds) :
    x = PluginCall.check ∨ x = PluginCall.security_cleanup true ∨
      x = PluginCall.security_init true := by
  obtain ⟨rs, hrs, hjoin⟩ := h
  rw [hjoin] at hx
  obtain ⟨r, hr, hxr⟩ := List.mem_flatten.mp hx
  obtain ⟨cs, hcs, hreq⟩ := hrs r hr
  rw [hreq] at hxr
  rcases List.mem_append.mp hxr with h1 | h1
  · exact Or.inl (hcs x h1)
  · rcases List.mem_cons.mp h1 with h2 | h2
    · exact Or.inr (Or.inl h2)
    · exact Or.inr (Or.inr (List.mem_singleton.mp h2))

theorem mem_securityBody (b : List PluginCall) (h : isSecurityBody b)
    (x : PluginCall) (hx : x ∈ b) :
    x ≠ PluginCall.plugin_init ∧ x ≠ PluginCall.plugin_cleanup := by
  obtain ⟨rounds, cs, hr, hc, hbeq⟩ := h
  rw [hbeq] at hx
  rcases List.mem_cons.mp hx with h1 | h1
  · rw [h1]
    exact ⟨by decide, by decide⟩
  · rcases List.mem_append.mp h1 with h2 | h2
    · rcases List.mem_append.mp h2 with h3 | h3
      · rcases mem_reloadRounds rounds hr x h3 with h4 | h4 | h4 <;>
          (rw [h4]; exact ⟨by decide, by decide⟩)
      · rw [hc x h3]
        exact ⟨by decide, by decide⟩
    · rw [List.mem_singleton.mp h2]
      exact ⟨by decide, by decide⟩

theorem isFullLifecycle_count (v : List PluginCall) (h : isFullLifecycle v) :
    List.count PluginCall.plugin_init v = 1 ∧
    List.count PluginCall.plugin_cleanup v = 1 := by
  obtain ⟨b, hb, hv⟩ := h
  have hbi : PluginCall.plugin_init ∉ b := by
    rcases hb with h1 | h1
    · rw [h1]; exact List.not_mem_nil _
    · intro hmem
      exact absurd rfl (mem_securityBody b h1 _ hmem).1
  have hbc : PluginCall.plugin_cleanup ∉ b := by
    rcases hb with h1 | h1
    · rw [h1]; exact List.not_mem_nil _
    · intro hmem
      exact absurd rfl (mem_securityBody b h1 _ hmem).2
  subst hv
  constructor
  · simp [List.count_cons, List.count_append, List.count_eq_zero.mpr hbi]
  · simp [List.count_cons, List.count_append, List.count_eq_zero.mpr hbc]

/-- C4: every call sequence the host may issue to a successfully
initialized provider (every sequence the lifecycle machine accepts) is a
prefix of a complete lifecycle word: plugin init, then optionally one
security bracket opened by security init with reload false, containing
zero or more reload rounds (checks, security cleanup with reload true,
security init with reload true) and trailing checks and closed by
security cleanup with reload false, then plugin cleanup; in particular
plugin init and plugin cleanup each occur at most once.  The strict
alternation of security init and cleanup with matching reload flags and
the confinement of checks to the open bracket are exactly the shape of
the regular expression word.  -/
theorem lifecycle_bracketing (w : List PluginCall) (s : LifeState)
    (h : lifeRun LifeState.unloaded w = some s) :
    (∃ v, isFullLifecycle v ∧ w <+: v) ∧
    List.count PluginCall.plugin_init w ≤ 1 ∧
    List.count PluginCall.plugin_cleanup w ≤ 1 := by
  have hshape := lifeRun_reachShape w s h
  have hpre : ∃ v, isFullLifecycle v ∧ w <+: v := by
    cases s with
    | unloaded =>
      have hw : w = [] := hshape
      rw [hw]
      exact ⟨[PluginCall.plugin_init, PluginCall.plugin_cleanup],
        ⟨[], Or.inl rfl, rfl⟩, List.nil_prefix⟩
    | initialized =>
      have hw : w = [PluginCall.plugin_init] := hshape
      rw [hw]
      exact ⟨[PluginCall.plugin_init, PluginCall.plugin_cleanup],
        ⟨[], Or.inl rfl, rfl⟩, ⟨[PluginCall.plugin_cleanup], rfl⟩⟩
    | active =>
      obtain ⟨rounds, cs, hr, hc, hw⟩ := hshape
      refine ⟨PluginCall.plugin_init ::
          ((PluginCall.security_init false ::
            (rounds ++ cs ++ [PluginCall.security_cleanup false]))
            ++ [PluginCall.plugin_cleanup]),
        ⟨PluginCall.security_init false ::
          (rounds ++ cs ++ [PluginCall.security_cleanup false]),
          Or.inr ⟨rounds, cs, hr, hc, rfl⟩, rfl⟩,
        ⟨[PluginCall.security_cleanup false, PluginCall.plugin_cleanup], ?_⟩⟩
      rw [hw]
      simp [List.append_assoc]
    | suspended =>
      obtain ⟨rounds, cs, hr, hc, hw⟩ := hshape
      refine ⟨PluginCall.plugin_init ::
          ((PluginCall.security_init false ::
            ((rounds ++ (cs ++ [PluginCall.security_cleanup true,
              PluginCall.security_init true])) ++ []
              ++ [PluginCall.security_cleanup false]))
            ++ [PluginCall.plugin_cleanup]),
        ⟨PluginCall.security_init false ::
          ((rounds ++ (cs ++ [PluginCall.security_cleanup true,
            PluginCall.security_init true])) ++ []
            ++ [PluginCall.security_cleanup false]),
          Or.inr ⟨rounds ++ (cs ++ [PluginCall.security_cleanup true,
            PluginCall.security_init true]), [],
            isReloadRounds_snoc rounds cs hr hc, isChecks_nil, rfl⟩, rfl⟩,
        ⟨[PluginCall.security_init true, PluginCall.security_cleanup false,
          PluginCall.plugin_cleanup], ?_⟩⟩
      rw [hw]
      simp [List.append_assoc]
    | secDone =>
      obtain ⟨b, hb, hw⟩ := hshape
      refine ⟨PluginCall.plugin_init :: (b ++ [PluginCall.plugin_cleanup]),
        ⟨b, Or.inr hb, rfl⟩, ⟨[PluginCall.plugin_cleanup], ?_⟩⟩
      rw [hw]
      rfl
    | finished =>
      exact ⟨w, hshape, List.prefix_refl w⟩
  obtain ⟨v, hv, hwv⟩ := hpre
  have hcounts := isFullLifecycle_count v hv
  refine ⟨⟨v, hv, hwv⟩, ?_, ?_⟩
  · exact le_of_le_of_eq (hwv.sublist.count_le PluginCall.plugin_init) hcounts.1
  · exact le_of_le_of_eq (hwv.sublist.count_le PluginCall.plugin_cleanup) hcounts.2

/-- Witness for lifecycle_bracketing: a full lifecycle with one reload
round is accepted by the machine and is a prefix of a complete lifecycle
word, with plugin init and plugin cleanup each occurring once. -/
theorem lifecycle_bracketing_witness :
    (∃ v, isFullLifecycle v ∧
      [PluginCall.plugin_init, PluginCall.security_init false,
        PluginCall.check, PluginCall.security_cleanup true,
        PluginCall.security_init true, PluginCall.check,
        PluginCall.security_cleanup false, PluginCall.plugin_cleanup] <+: v) ∧
    List.count PluginCall.plugin_init
      [PluginCall.plugin_init, PluginCall.security_init false,
        PluginCall.check, PluginCall.security_cleanup true,
        PluginCall.security_init true, PluginCall.check,
        PluginCall.security_cleanup false, PluginCall.plugin_cleanup] ≤ 1 ∧
    List.count PluginCall.plugin_cleanup
      [PluginCall.plugin_init, PluginCall.security_init false,
        PluginCall.check, PluginCall.security_cleanup true,
        PluginCall.security_init true, PluginCall.check,
        PluginCall.security_cleanup false, PluginCall.plugin_cleanup] ≤ 1 :=
  lifecycle_bracketing
    [PluginCall.plugin_init, PluginCall.security_init false,
      PluginCall.check, PluginCall.security_cleanup true,
      PluginCall.security_init true, PluginCall.check,
      PluginCall.security_cleanup false, PluginCall.plugin_cleanup]
    LifeState.finished (by decide)

end Mosquitto
